import Mathlib

/-!
Verification of the PDC-Net EGNN encoder
(`src/modules/encoders/egnn/egnn_pytorch.py`).

The tensor programs of `EGNN.forward` and `EGNN_Network.forward` are shallowly
embedded over `ℚ`.  Tensors become functions out of `Fin`-indexed types
(batch index `bq`, node index `n`, feature index `d`, message index `m`,
edge-feature index `e`); the learned sub-modules (`edge_mlp`, `node_mlp`,
`coors_mean_mlp`, `coors_var_mlp`, `node_norm`, `coors_norm`, `edge_gate`)
are opaque function-valued parameters collected in `EGNNParams`, mirroring the
parameter-store reading of the Python module.  The runtime flag
`diagonal_var` selects between two tensor shapes for the variance, so the
forward pass is embedded once per representation (`...Diag` / `...Full`),
each mirroring the corresponding branch of the Python source.  The
`distri_input = True` configuration (the class default, with no fourier
encoding of distance) is the path embedded here.
-/

namespace PDCNet

/-- 3-vector of rationals: one row of a `(B, N, 3)` tensor. -/
abbrev V3 : Type := Fin 3 → ℚ

/-- 3×3 matrix of rationals: one `(3, 3)` block of a `(B, N, 3, 3)` tensor. -/
abbrev M3 : Type := Fin 3 → Fin 3 → ℚ

/-! ### Pairwise relative statistics (egnn_pytorch.py lines 186-202) -/

/-- Line 191: `rel_coors_mean[i][j] = coors_mean[i] - coors_mean[j]`. -/
def relCoorsMean {n : ℕ} (cm : Fin n → V3) : Fin n → Fin n → V3 :=
  fun i j c => cm i c - cm j c

/-- Line 187 (diagonal case): `rel_coors_var[i][j] = coors_var[i] + coors_var[j]`. -/
def relCoorsVarDiag {n : ℕ} (cv : Fin n → V3) : Fin n → Fin n → V3 :=
  fun i j c => cv i c + cv j c

/-- Line 189 (full-covariance case): elementwise sum of the two 3×3 blocks. -/
def relCoorsVarFull {n : ℕ} (cv : Fin n → M3) : Fin n → Fin n → M3 :=
  fun i j r c => cv i r c + cv j r c

/-- Line 194: `rel_dist_sum = (rel_coors_mean ** 2).sum(dim=-1)`. -/
def relDistSum {n : ℕ} (rcm : Fin n → Fin n → V3) : Fin n → Fin n → ℚ :=
  fun i j => ∑ c, rcm i j c ^ 2

/-- Line 196: `rel_coors_var_trace = rel_coors_var.sum(dim=-1)` (diagonal case). -/
def relVarTraceDiag {n : ℕ} (rcv : Fin n → Fin n → V3) : Fin n → Fin n → ℚ :=
  fun i j => ∑ c, rcv i j c

/-- Line 199: `rel_coors_var.diagonal(...).sum(dim=-1)` (full-covariance case). -/
def relVarTraceFull {n : ℕ} (rcv : Fin n → Fin n → M3) : Fin n → Fin n → ℚ :=
  fun i j => ∑ c, rcv i j c c

/-- Line 197 (diagonal case):
`rel_dist_std = 2 * rel_coors_var_trace + 4 * (rel_coors_mean ** 2 * rel_coors_var).sum(-1)`. -/
def relDistStdDiag {n : ℕ} (rcm : Fin n → Fin n → V3) (rcv : Fin n → Fin n → V3) :
    Fin n → Fin n → ℚ :=
  fun i j => 2 * relVarTraceDiag rcv i j + 4 * ∑ c, rcm i j c ^ 2 * rcv i j c

/-- Line 200 (full-covariance case):
`rel_dist_std = 2 * rel_coors_var_trace + 4 * (μ^T @ Σ @ μ)` with the matrix
product written out index-wise. -/
def relDistStdFull {n : ℕ} (rcm : Fin n → Fin n → V3) (rcv : Fin n → Fin n → M3) :
    Fin n → Fin n → ℚ :=
  fun i j => 2 * relVarTraceFull rcv i j +
    4 * ∑ r, ∑ c, rcm i j r * rcv i j r c * rcm i j c

/-- Line 202: `rel_dist_mean = rel_dist_sum + rel_coors_var_trace` (diagonal case). -/
def relDistMeanDiag {n : ℕ} (rcm : Fin n → Fin n → V3) (rcv : Fin n → Fin n → V3) :
    Fin n → Fin n → ℚ :=
  fun i j => relDistSum rcm i j + relVarTraceDiag rcv i j

/-- Line 202 for the full-covariance branch. -/
def relDistMeanFull {n : ℕ} (rcm : Fin n → Fin n → V3) (rcv : Fin n → Fin n → M3) :
    Fin n → Fin n → ℚ :=
  fun i j => relDistSum rcm i j + relVarTraceFull rcv i j

/-! ### Spec-side formulas for the distance variance.

These two definitions follow the words of the spec (§4.2 step 4 and claim C3):
`2·tr(Σ)² + 4·μᵀΣμ`, with a proper matrix trace and quadratic form.  They are
compared with the source-derived `relDistStdDiag` / `relDistStdFull` above. -/

/-- Matrix trace of a 3×3 block (mathematical definition, spec side). -/
def trace3 (S : M3) : ℚ := ∑ c, S c c

/-- Quadratic form `μᵀ S μ` (mathematical definition, spec side). -/
def quadForm3 (mu : V3) (S : M3) : ℚ := ∑ r, ∑ c, mu r * S r c * mu c

/-- Embeds a diagonal (3,)-variance as a 3×3 matrix. -/
def diagM3 (v : V3) : M3 := fun r c => if r = c then v r else 0

/-- Spec-side formula of claim C3: `2·tr(Σ)² + 4·μᵀΣμ` (trace squared). -/
def specRelDistStd (mu : V3) (S : M3) : ℚ :=
  2 * trace3 S ^ 2 + 4 * quadForm3 mu S

/-- Concrete coordinate means for the C3 counterexample: both nodes at the origin. -/
def c3cm : Fin 2 → V3 := fun _ _ => 0

/-- Concrete diagonal variances for the C3 counterexample: `(1, 0, 0)` per node. -/
def c3cv : Fin 2 → V3 := fun _ c => if c = 0 then 1 else 0

/-- Concrete full-covariance variances for the C3 counterexample. -/
def c3cvFull : Fin 2 → M3 := fun _ r c => if r = 0 ∧ c = 0 then 1 else 0

/-- C3, counterexample.  At relative mean `μ = 0` and relative variance
`Σ = diag(2, 0, 0)` (so `tr Σ = 2`), the code's `rel_dist_std` is
`2·tr(Σ) = 4` while the claim's formula `2·tr(Σ)² + 4·μᵀΣμ` gives `8`;
the same mismatch occurs on the full-covariance branch. -/
theorem C3_counterexample :
    relDistStdDiag (relCoorsMean c3cm) (relCoorsVarDiag c3cv) 0 1 ≠
      specRelDistStd (relCoorsMean c3cm 0 1) (diagM3 (relCoorsVarDiag c3cv 0 1)) ∧
    relDistStdFull (relCoorsMean c3cm) (relCoorsVarFull c3cvFull) 0 1 ≠
      specRelDistStd (relCoorsMean c3cm 0 1) (relCoorsVarFull c3cvFull 0 1) := by
  constructor <;>
  · simp [relDistStdDiag, relDistStdFull, relVarTraceDiag, relVarTraceFull,
      relCoorsMean, relCoorsVarDiag, relCoorsVarFull, specRelDistStd, trace3,
      quadForm3, diagM3, c3cm, c3cv, c3cvFull, Fin.sum_univ_three]
    norm_num

/-- C3, amended.  For every pair `(i, j)`, the computed `rel_dist_std` equals
`2·tr(Σ) + 4·μᵀΣμ` (trace NOT squared), where `μ` is the relative coordinate
mean and `Σ` the relative coordinate variance: the diagonal case agrees with
the proper matrix trace and quadratic form of the embedded diagonal matrix,
and the full-covariance case with the proper matrix trace and quadratic form
of `Σ` itself. -/
theorem C3_amended :
    (∀ (n : ℕ) (cm cv : Fin n → V3) (i j : Fin n),
      relDistStdDiag (relCoorsMean cm) (relCoorsVarDiag cv) i j =
        2 * trace3 (diagM3 (relCoorsVarDiag cv i j)) +
          4 * quadForm3 (relCoorsMean cm i j) (diagM3 (relCoorsVarDiag cv i j))) ∧
    (∀ (n : ℕ) (cm : Fin n → V3) (cv : Fin n → M3) (i j : Fin n),
      relDistStdFull (relCoorsMean cm) (relCoorsVarFull cv) i j =
        2 * trace3 (relCoorsVarFull cv i j) +
          4 * quadForm3 (relCoorsMean cm i j) (relCoorsVarFull cv i j)) := by
  constructor
  · intro n cm cv i j
    simp [relDistStdDiag, relVarTraceDiag, trace3, quadForm3, diagM3,
      Fin.sum_univ_three, Fin.ext_iff]
    ring
  · intro n cm cv i j
    simp only [relDistStdFull, relVarTraceFull, trace3, quadForm3]

/-! ### Neighbor ranking and top-k selection (egnn_pytorch.py lines 204-232) -/

/-- Lines 207-209: pairs with either endpoint masked out are forced to the
sentinel `1e5` in the ranking tensor (`rank_mask = mask_i * mask_j`). -/
def rankingMask {n : ℕ} (mask : Option (Fin n → Bool)) (r : Fin n → Fin n → ℚ) :
    Fin n → Fin n → ℚ :=
  match mask with
  | none => r
  | some mk => fun i j => if mk i && mk j then r i j else 100000

/-- Line 221: `adj_mat = adj_mat.masked_fill(self_mask, False)` — the
adjacency matrix with self-loops removed. -/
def adjNoSelf {n : ℕ} (a : Fin n → Fin n → Bool) : Fin n → Fin n → Bool :=
  fun i j => if i = j then false else a i j

/-- Lines 219-223: when an adjacency matrix exists, self-pairs are filled with
`-1.` and then declared-adjacent pairs (self-loops already removed) with `0.`;
the adjacency fill comes last, so it overwrites any previous value on
off-diagonal entries while the diagonal keeps `-1`. -/
def rankingAdj {n : ℕ} (adj : Option (Fin n → Fin n → Bool)) (r : Fin n → Fin n → ℚ) :
    Fin n → Fin n → ℚ :=
  match adj with
  | none => r
  | some a => fun i j => if adjNoSelf a i j then 0 else if i = j then -1 else r i j

/-- Lines 204-223 combined: the final ranking tensor of one batch element,
mask sentinel first, adjacency/self fills second. -/
def rankingT {n : ℕ} (mask : Option (Fin n → Bool)) (adj : Option (Fin n → Fin n → Bool))
    (rdm : Fin n → Fin n → ℚ) : Fin n → Fin n → ℚ :=
  rankingAdj adj (rankingMask mask rdm)

/-- The stable comparison used to model `topk(..., largest=False)`: sort by
value, breaking exact ties by lowest index. -/
def lexLe {n : ℕ} (v : Fin n → ℚ) (a b : Fin n) : Prop :=
  v a < v b ∨ (v a = v b ∧ a ≤ b)

instance lexLe.instDecidableRel {n : ℕ} (v : Fin n → ℚ) : DecidableRel (lexLe v) :=
  fun a b => by unfold lexLe; infer_instance

instance lexLe.instIsTotal {n : ℕ} (v : Fin n → ℚ) : IsTotal (Fin n) (lexLe v) where
  total a b := by
    rcases lt_trichotomy (v a) (v b) with h | h | h
    · exact Or.inl (Or.inl h)
    · rcases le_total a b with hab | hab
      · exact Or.inl (Or.inr ⟨h, hab⟩)
      · exact Or.inr (Or.inr ⟨h.symm, hab⟩)
    · exact Or.inr (Or.inl h)

instance lexLe.instIsTrans {n : ℕ} (v : Fin n → ℚ) : IsTrans (Fin n) (lexLe v) where
  trans a b c hab hbc := by
    rcases hab with h1 | ⟨h1, h1'⟩ <;> rcases hbc with h2 | ⟨h2, h2'⟩
    · exact Or.inl (h1.trans h2)
    · exact Or.inl (h2 ▸ h1)
    · exact Or.inl (h1 ▸ h2)
    · exact Or.inr ⟨h1.trans h2, le_trans h1' h2'⟩

theorem lexLe_antisymm {n : ℕ} {v : Fin n → ℚ} {a b : Fin n}
    (h1 : lexLe v a b) (h2 : lexLe v b a) : a = b := by
  rcases h1 with h1 | ⟨h1, h1'⟩ <;> rcases h2 with h2 | ⟨h2, h2'⟩
  · exact absurd h2 (lt_asymm h1)
  · exact absurd h1 (h2 ▸ lt_irrefl _)
  · exact absurd h2 (h1 ▸ lt_irrefl _)
  · exact le_antisymm h1' h2'

/-- All indices sorted by `(value, index)`: the order in which
`topk(..., largest=False)` emits indices. -/
def sortedIdx {n : ℕ} (v : Fin n → ℚ) : List (Fin n) :=
  List.insertionSort (lexLe v) (List.finRange n)

/-- The `k` smallest-ranked indices, ties broken by lowest index. -/
def topkSmallest {n : ℕ} (k : ℕ) (v : Fin n → ℚ) : List (Fin n) :=
  (sortedIdx v).take k

/-- Line 225: the selected neighbor indices `nbhd_indices[i]` of node `i`. -/
def nbhdList {n : ℕ} (k : ℕ) (rank : Fin n → Fin n → ℚ) (i : Fin n) : List (Fin n) :=
  topkSmallest k (rank i)

theorem sortedIdx_perm {n : ℕ} (v : Fin n → ℚ) :
    (sortedIdx v).Perm (List.finRange n) :=
  List.perm_insertionSort _ _

theorem sortedIdx_nodup {n : ℕ} (v : Fin n → ℚ) : (sortedIdx v).Nodup :=
  ((sortedIdx_perm v).nodup_iff).mpr (List.nodup_finRange n)

theorem mem_sortedIdx {n : ℕ} (v : Fin n → ℚ) (a : Fin n) : a ∈ sortedIdx v :=
  ((sortedIdx_perm v).mem_iff).mpr (List.mem_finRange a)

theorem sortedIdx_sorted {n : ℕ} (v : Fin n → ℚ) :
    (sortedIdx v).Sorted (lexLe v) :=
  List.sorted_insertionSort _ _

/-- Separation inclusion: a set `S` of indices whose values lie strictly below
every value outside `S` is entirely selected as soon as `S.card ≤ k`. -/
theorem subset_topkSmallest {n k : ℕ} {v : Fin n → ℚ} {S : Finset (Fin n)}
    (hsep : ∀ a ∈ S, ∀ b ∉ S, v a < v b) (hcard : S.card ≤ k) :
    ∀ a ∈ S, a ∈ topkSmallest k v := by
  intro a ha
  by_contra hna
  have hmemL : a ∈ sortedIdx v := mem_sortedIdx v a
  have hsplit := List.take_append_drop k (sortedIdx v)
  have hdrop : a ∈ (sortedIdx v).drop k := by
    rcases (List.mem_append.mp (hsplit ▸ hmemL)) with h | h
    · exact absurd h hna
    · exact h
  have htake_sub : ∀ x ∈ (sortedIdx v).take k, x ∈ S := by
    intro x hx
    by_contra hxS
    have hrel : lexLe v x a :=
      (sortedIdx_sorted v).rel_of_mem_take_of_mem_drop hx hdrop
    have hlt : v a < v x := hsep a ha x hxS
    rcases hrel with h | ⟨h, _⟩
    · exact absurd hlt (lt_asymm h)
    · exact absurd hlt (h ▸ lt_irrefl _)
  have hlen : ((sortedIdx v).take k).length = k := by
    rcases Nat.lt_or_ge k (sortedIdx v).length with h | h
    · simpa using Nat.min_eq_left h.le
    · exfalso
      have : (sortedIdx v).drop k = [] := List.drop_eq_nil_of_le h
      rw [this] at hdrop
      exact absurd hdrop (List.not_mem_nil a)
  have hnod : ((sortedIdx v).take k).Nodup :=
    (sortedIdx_nodup v).sublist (List.take_sublist _ _)
  have hsubF : insert a ((sortedIdx v).take k).toFinset ⊆ S := by
    intro x hx
    rcases Finset.mem_insert.mp hx with h | h
    · exact h ▸ ha
    · exact htake_sub x (List.mem_toFinset.mp h)
  have hanot : a ∉ ((sortedIdx v).take k).toFinset := by
    intro h
    exact hna (List.mem_toFinset.mp h)
  have hcard2 : k + 1 ≤ S.card := by
    have h1 : (insert a ((sortedIdx v).take k).toFinset).card =
        ((sortedIdx v).take k).toFinset.card + 1 := Finset.card_insert_of_not_mem hanot
    have h2 : ((sortedIdx v).take k).toFinset.card = k :=
      (List.toFinset_card_of_nodup hnod).trans hlen
    have h3 := Finset.card_le_card hsubF
    omega
  omega

/-- Separation exclusion: an index `b` outside a set `S` of `k` or more
indices whose values all lie strictly below `v b` is never selected. -/
theorem not_mem_topkSmallest {n k : ℕ} {v : Fin n → ℚ} {S : Finset (Fin n)} {b : Fin n}
    (hb : b ∉ S) (hsep : ∀ a ∈ S, v a < v b) (hcard : k ≤ S.card) :
    b ∉ topkSmallest k v := by
  intro hmem
  have hS_take : ∀ s ∈ S, s ∈ (sortedIdx v).take k := by
    intro s hs
    have hmemL : s ∈ sortedIdx v := mem_sortedIdx v s
    have hsplit := List.take_append_drop k (sortedIdx v)
    rcases (List.mem_append.mp (hsplit ▸ hmemL)) with h | h
    · exact h
    · exfalso
      have hrel : lexLe v b s :=
        (sortedIdx_sorted v).rel_of_mem_take_of_mem_drop hmem h
      have hlt : v s < v b := hsep s hs
      rcases hrel with h' | ⟨h', _⟩
      · exact absurd hlt (lt_asymm h')
      · exact absurd hlt (h' ▸ lt_irrefl _)
  have hsubF : insert b S ⊆ ((sortedIdx v).take k).toFinset := by
    intro x hx
    rcases Finset.mem_insert.mp hx with h | h
    · exact List.mem_toFinset.mpr (h ▸ hmem)
    · exact List.mem_toFinset.mpr (hS_take x h)
  have h1 : (insert b S).card = S.card + 1 := Finset.card_insert_of_not_mem hb
  have h2a : ((sortedIdx v).take k).toFinset.card ≤ ((sortedIdx v).take k).length :=
    List.toFinset_card_le _
  have h2b : ((sortedIdx v).take k).length ≤ k := by
    rw [List.length_take]
    exact Nat.min_le_left _ _
  have h3 := Finset.card_le_card hsubF
  omega

/-! ### Layer configuration and parameters -/

/-- `m_pool_method`: `'sum'` or `'mean'` (asserted at construction, line 145). -/
inductive PoolMethod where
  | sum : PoolMethod
  | mean : PoolMethod

/-- The learned parameters and configuration of one `EGNN` layer.  Learned
feed-forward sub-modules (`edge_mlp`, `node_mlp`, the two coordinate heads,
`node_norm`, `coors_norm`, the optional `edge_gate`) are opaque function
parameters; an MLP applied to a concatenation is modelled as a curried
function of the concatenated pieces.  `node_mlp`, `coors_mean_mlp` and
`coors_var_mlp` are `Option`s, `none` meaning the corresponding update is
disabled (`update_feats` / `update_coors_mean` / `update_coors_var`). -/
structure EGNNParams (d m e : ℕ) where
  edge_mlp : (Fin d → ℚ) → (Fin d → ℚ) → ℚ → ℚ → (Fin e → ℚ) → (Fin m → ℚ)
  edge_gate : Option ((Fin m → ℚ) → ℚ)
  node_mlp : Option ((Fin d → ℚ) → (Fin m → ℚ) → (Fin d → ℚ))
  coors_mean_mlp : Option ((Fin m → ℚ) → ℚ)
  coors_var_mlp : Option ((Fin m → ℚ) → ℚ)
  node_norm : (Fin d → ℚ) → (Fin d → ℚ)
  coors_norm : V3 → V3
  num_nearest_neighbors : ℕ
  only_sparse_neighbors : Bool
  valid_radius : WithTop ℚ
  m_pool_method : PoolMethod
  coor_weights_clamp_value : Option ℚ

/-- Line 184: `use_nearest = num_nearest > 0 or only_sparse_neighbors`. -/
def useNearest {d m e : ℕ} (p : EGNNParams d m e) : Bool :=
  decide (0 < p.num_nearest_neighbors) || p.only_sparse_neighbors

/-- Line 216: `int(adj_mat.float().sum(dim=-1).max().item())` — the maximum
row sum (out-degree) of the supplied adjacency matrix over the whole batch. -/
def maxOutDegree {bq n : ℕ} (adj : Fin bq → Fin n → Fin n → Bool) : ℕ :=
  Finset.univ.sup fun bi : Fin bq => Finset.univ.sup fun i : Fin n =>
    (Finset.univ.filter fun j => adj bi i j).card

/-- Lines 211-217: the neighbor count `num_nearest` actually used by `topk`:
in `only_sparse_neighbors` mode (adjacency matrix present) it becomes the
maximum out-degree over the batch. -/
def resolvedNumNearest {bq n d m e : ℕ} (p : EGNNParams d m e)
    (adj : Option (Fin bq → Fin n → Fin n → Bool)) : ℕ :=
  match adj with
  | none => p.num_nearest_neighbors
  | some a => if p.only_sparse_neighbors then maxOutDegree a else p.num_nearest_neighbors

/-- Lines 211-217: the validity radius actually used: in
`only_sparse_neighbors` mode (adjacency matrix present) it is set to `0`. -/
def resolvedValidRadius {bq n d m e : ℕ} (p : EGNNParams d m e)
    (adj : Option (Fin bq → Fin n → Fin n → Bool)) : WithTop ℚ :=
  match adj with
  | none => p.valid_radius
  | some _ => if p.only_sparse_neighbors then (0 : WithTop ℚ) else p.valid_radius

/-- Line 227: `nbhd_mask = nbhd_ranking <= valid_radius`, expressed at the
gathered slot `j` (the gathered ranking of slot `j` of row `i` is
`ranking i j`). -/
def nbhdValid {n : ℕ} (vr : WithTop ℚ) (rank : Fin n → Fin n → ℚ) (i j : Fin n) : Bool :=
  decide ((rank i j : WithTop ℚ) ≤ vr)

/-! ### Helper facts about the ranking tensor -/

/-- With nonnegative diagonal variances the expected squared distance
`rel_dist_mean` is nonnegative. -/
theorem relDistMeanDiag_nonneg {n : ℕ} (cm cv : Fin n → V3)
    (hcv : ∀ i c, 0 ≤ cv i c) (i j : Fin n) :
    0 ≤ relDistMeanDiag (relCoorsMean cm) (relCoorsVarDiag cv) i j := by
  unfold relDistMeanDiag relDistSum relVarTraceDiag relCoorsVarDiag
  have h1 : (0:ℚ) ≤ ∑ c, relCoorsMean cm i j c ^ 2 :=
    Finset.sum_nonneg fun c _ => sq_nonneg _
  have h2 : (0:ℚ) ≤ ∑ c, (cv i c + cv j c) :=
    Finset.sum_nonneg fun c _ => add_nonneg (hcv i c) (hcv j c)
  linarith

/-- With an adjacency matrix present, the diagonal of the ranking tensor is
forced to `-1`. -/
theorem rankingT_self {n : ℕ} (mask : Option (Fin n → Bool))
    (a : Fin n → Fin n → Bool) (rdm : Fin n → Fin n → ℚ) (i : Fin n) :
    rankingT mask (some a) rdm i i = -1 := by
  simp [rankingT, rankingAdj, adjNoSelf]

/-- With an adjacency matrix present, every off-diagonal ranking entry is
the adjacency fill `0` or the mask-filled base ranking. -/
theorem rankingT_off {n : ℕ} (mask : Option (Fin n → Bool))
    (a : Fin n → Fin n → Bool) (rdm : Fin n → Fin n → ℚ) {i j : Fin n} (hij : i ≠ j) :
    rankingT mask (some a) rdm i j =
      if adjNoSelf a i j then 0 else rankingMask mask rdm i j := by
  simp [rankingT, rankingAdj, hij]

/-- The mask fill keeps a nonnegative base ranking nonnegative (the sentinel
is `1e5 ≥ 0`). -/
theorem rankingMask_nonneg {n : ℕ} (mask : Option (Fin n → Bool))
    {rdm : Fin n → Fin n → ℚ} (h : ∀ i j, 0 ≤ rdm i j) (i j : Fin n) :
    0 ≤ rankingMask mask rdm i j := by
  cases mask with
  | none => exact h i j
  | some mk =>
    simp only [rankingMask]
    by_cases hm : mk i && mk j
    · simpa [hm] using h i j
    · simp [hm]

/-! ### Claim C2: self-selection -/

/-- Coordinate means for the C2 counterexample: node 0 at the origin,
node 1 at `(1, 0, 0)`. -/
def c2cm : Fin 2 → V3 := fun i c => if i = 1 ∧ c = 0 then 1 else 0

/-- Variances for the C2 counterexample: all zero. -/
def c2cv : Fin 2 → V3 := fun _ _ => 0

/-- C2, counterexample.  With `N = 2`, `num_nearest_neighbors = 1`
(`0 < K < N`), no mask and no adjacency matrix, node 0's selected neighbor
set contains node 0 itself: its self-rank is `0` (zero variance, zero
distance), strictly below the rank `1` of the other node, and no sentinel
ever touches self-pairs when `adj_mat` is absent. -/
theorem C2_counterexample :
    (0 : Fin 2) ∈ nbhdList 1
      (rankingT none none (relDistMeanDiag (relCoorsMean c2cm) (relCoorsVarDiag c2cv))) 0 := by
  apply subset_topkSmallest (S := {0}) ?_ ?_ 0 (Finset.mem_singleton_self 0)
  · intro x hx b hb
    have hx0 : x = 0 := Finset.mem_singleton.mp hx
    have hb1 : b = 1 := by
      have := Finset.not_mem_singleton.mp hb
      omega
    rw [hx0, hb1]
    simp [rankingT, rankingAdj, rankingMask, relDistMeanDiag, relDistSum,
      relVarTraceDiag, relCoorsMean, relCoorsVarDiag, c2cm, c2cv,
      Fin.sum_univ_three]
  · simp

/-- C2, amended.  Self-pairs are not excluded: when an adjacency matrix is
supplied, every self-pair's rank is forced to the sentinel `-1`, which lies
strictly BELOW every other rank (masked pairs carry `1e5`, adjacent pairs
`0`, remaining pairs the nonnegative expected squared distance, provided the
diagonal variances are nonnegative), so with `K ≥ 1` every node's selected
neighbor set always CONTAINS the node's own index; without an adjacency
matrix no self-sentinel is applied at all. -/
theorem C2_theorem {n : ℕ} (K : ℕ) (hK : 1 ≤ K)
    (mask : Option (Fin n → Bool)) (a : Fin n → Fin n → Bool)
    (cm cv : Fin n → V3) (hcv : ∀ i c, 0 ≤ cv i c) (i : Fin n) :
    rankingT mask (some a) (relDistMeanDiag (relCoorsMean cm) (relCoorsVarDiag cv)) i i = -1 ∧
    i ∈ nbhdList K
      (rankingT mask (some a) (relDistMeanDiag (relCoorsMean cm) (relCoorsVarDiag cv))) i := by
  refine ⟨rankingT_self mask a _ i, ?_⟩
  apply subset_topkSmallest (S := {i}) ?_ (by simpa using hK) i (Finset.mem_singleton_self i)
  intro x hx b hb
  have hx0 : x = i := Finset.mem_singleton.mp hx
  have hbne : i ≠ b := fun h => (Finset.not_mem_singleton.mp hb) h.symm
  rw [hx0]
  rw [rankingT_self mask a _ i, rankingT_off mask a _ hbne]
  by_cases hadj : adjNoSelf a i b
  · simp [hadj]
  · rw [if_neg hadj]
    have := rankingMask_nonneg mask
      (fun i' j' => relDistMeanDiag_nonneg cm cv hcv i' j') i b
    linarith

/-- Witness for `C2_theorem`: `N = 2`, `K = 1`, no mask, nodes 0 and 1
adjacent, zero variances. -/
theorem C2_theorem_witness :
    rankingT none (some fun i j : Fin 2 => !(i = j))
      (relDistMeanDiag (relCoorsMean c2cm) (relCoorsVarDiag c2cv)) 0 0 = -1 ∧
    (0 : Fin 2) ∈ nbhdList 1
      (rankingT none (some fun i j : Fin 2 => !(i = j))
        (relDistMeanDiag (relCoorsMean c2cm) (relCoorsVarDiag c2cv))) 0 :=
  C2_theorem 1 le_rfl none _ c2cm c2cv (fun _ _ => le_rfl) 0

/-! ### Claims C7 and C8: sparse-neighbor mode and adjacency-forced inclusion -/

/-- The declared neighbors of node `i` (self-loops removed, line 221). -/
def adjRow {n : ℕ} (a : Fin n → Fin n → Bool) (i : Fin n) : Finset (Fin n) :=
  Finset.univ.filter fun j => adjNoSelf a i j

/-- Parameters for the C7 counterexample: `only_sparse_neighbors` mode, all
update heads present but irrelevant to neighbor selection. -/
def c7p : EGNNParams 1 1 0 where
  edge_mlp := fun _ _ _ _ _ _ => 0
  edge_gate := none
  node_mlp := none
  coors_mean_mlp := none
  coors_var_mlp := some fun _ => 0
  node_norm := id
  coors_norm := id
  num_nearest_neighbors := 0
  only_sparse_neighbors := true
  valid_radius := ⊤
  m_pool_method := PoolMethod.sum
  coor_weights_clamp_value := none

/-- Adjacency for the C7 counterexample: node 0 points at nodes 1 and 2;
nodes 1 and 2 have out-degree 0. -/
def c7adj : Fin 1 → Fin 3 → Fin 3 → Bool :=
  fun _ i j => i = 0 && (j = 1 || j = 2)

/-- Coordinate means for the C7 counterexample: nodes at `0`, `(1,0,0)`,
`(3,0,0)`. -/
def c7cm : Fin 3 → V3 :=
  fun i c => if c = 0 then (if i = 1 then 1 else if i = 2 then 3 else 0) else 0

/-- Zero variances for the C7 counterexample. -/
def c7cv : Fin 3 → V3 := fun _ _ => 0

/-- The ranking tensor of the C7 counterexample (no mask, adjacency present). -/
def c7rank : Fin 3 → Fin 3 → ℚ :=
  rankingT none (some (c7adj 0)) (relDistMeanDiag (relCoorsMean c7cm) (relCoorsVarDiag c7cv))

theorem c7rank_eval : c7rank 1 1 = -1 ∧ c7rank 1 0 = 1 ∧ c7rank 1 2 = 4 := by
  refine ⟨?_, ?_, ?_⟩ <;>
    (norm_num [c7rank, rankingT, rankingAdj, rankingMask, adjNoSelf, c7adj,
      relDistMeanDiag, relDistSum, relVarTraceDiag, relCoorsMean,
      relCoorsVarDiag, c7cm, c7cv, Fin.sum_univ_three, Fin.ext_iff] <;> decide)

/-- C7, counterexample.  In `only_sparse_neighbors` mode, `K` is the maximum
out-degree over the batch (here 2), but node 1 has out-degree 0: its two
selected slots are its self-pair (rank `-1`) and node 0 (rank `1 > 0`), and
the latter IS flagged invalid by the radius-0 validity check — so radius
filtering is not "disabled"; it is what removes the padding slots. -/
theorem C7_counterexample :
    resolvedNumNearest c7p (some c7adj) = 2 ∧
    (0 : Fin 3) ∈ nbhdList (resolvedNumNearest c7p (some c7adj)) c7rank 1 ∧
    nbhdValid (resolvedValidRadius c7p (some c7adj)) c7rank 1 0 = false := by
  obtain ⟨h11, h10, h12⟩ := c7rank_eval
  have hK : resolvedNumNearest c7p (some c7adj) = 2 := by
    have hmd : maxOutDegree c7adj = 2 := by decide
    simp [resolvedNumNearest, c7p, hmd]
  refine ⟨hK, ?_, ?_⟩
  · rw [hK]
    apply subset_topkSmallest (S := {1, 0}) ?_ (by decide) 0 (by decide)
    intro x hx b hb
    have hx' : x = 1 ∨ x = 0 := by
      rcases Finset.mem_insert.mp hx with h | h
      · exact Or.inl h
      · exact Or.inr (Finset.mem_singleton.mp h)
    have hb2 : b = 2 := by
      have h1 : b ≠ 1 := fun h => hb (by rw [h]; decide)
      have h0 : b ≠ 0 := fun h => hb (by rw [h]; decide)
      omega
    rcases hx' with h | h <;> rw [h, hb2]
    · rw [h11, h12]; norm_num
    · rw [h10, h12]; norm_num
  · have hvr : resolvedValidRadius c7p (some c7adj) = (0 : WithTop ℚ) := by
      simp [resolvedValidRadius, c7p]
    rw [hvr]
    simp only [nbhdValid, h10]
    rw [decide_eq_false_iff_not]
    intro h
    have : (1 : ℚ) ≤ 0 := WithTop.coe_le_coe.mp h
    norm_num at this

/-- C7, amended.  When `only_sparse_neighbors` is set and an adjacency matrix
is supplied, the neighbor count `K` equals the maximum out-degree of the
adjacency matrix across the whole batch, and the validity radius is set to
`0` — so a selected neighbor is flagged VALID exactly when its forced ranking
is `≤ 0`: self-pairs and declared-adjacent pairs are valid, and (whenever
non-adjacent non-self pairs have strictly positive mask-filled ranking)
every other selected slot is flagged invalid. -/
theorem C7_theorem {bq n d m e : ℕ} (p : EGNNParams d m e)
    (hsp : p.only_sparse_neighbors = true)
    (adj : Fin bq → Fin n → Fin n → Bool) (bi : Fin bq)
    (mask : Option (Fin n → Bool)) (rdm : Fin n → Fin n → ℚ)
    (hpos : ∀ i j, adjNoSelf (adj bi) i j = false → i ≠ j →
      0 < rankingMask mask rdm i j) :
    resolvedNumNearest p (some adj) = maxOutDegree adj ∧
    resolvedValidRadius p (some adj) = (0 : WithTop ℚ) ∧
    (∀ i j, nbhdValid (resolvedValidRadius p (some adj))
        (rankingT mask (some (adj bi)) rdm) i j = true ↔
      (i = j ∨ adjNoSelf (adj bi) i j = true)) := by
  have hK : resolvedNumNearest p (some adj) = maxOutDegree adj := by
    simp [resolvedNumNearest, hsp]
  have hvr : resolvedValidRadius p (some adj) = (0 : WithTop ℚ) := by
    simp [resolvedValidRadius, hsp]
  refine ⟨hK, hvr, ?_⟩
  intro i j
  rw [hvr]
  by_cases hij : i = j
  · subst hij
    simp only [nbhdValid, rankingT_self, decide_eq_true_eq]
    constructor
    · intro _
      left
      trivial
    · intro _
      exact WithTop.coe_le_coe.mpr (by norm_num)
  · simp only [nbhdValid, rankingT_off mask (adj bi) rdm hij, decide_eq_true_eq]
    by_cases hadj : adjNoSelf (adj bi) i j
    · simp only [if_pos hadj]
      constructor
      · intro _
        exact Or.inr hadj
      · intro _
        exact WithTop.coe_le_coe.mpr le_rfl
    · have hp := hpos i j (by simpa using hadj) hij
      simp only [if_neg hadj]
      constructor
      · intro h
        exact absurd (WithTop.coe_le_coe.mp h) (not_le.mpr hp)
      · intro h
        rcases h with h | h
        · exact absurd h hij
        · exact absurd h (by simpa using hadj)

/-- Witness for `C7_theorem`: the C7 counterexample instance (no mask, zero
variances, positive pairwise distances). -/
theorem C7_theorem_witness :
    resolvedNumNearest c7p (some c7adj) = maxOutDegree c7adj ∧
    resolvedValidRadius c7p (some c7adj) = (0 : WithTop ℚ) ∧
    (∀ i j, nbhdValid (resolvedValidRadius c7p (some c7adj))
        (rankingT none (some (c7adj 0))
          (relDistMeanDiag (relCoorsMean c7cm) (relCoorsVarDiag c7cv))) i j = true ↔
      (i = j ∨ adjNoSelf (c7adj 0) i j = true)) := by
  apply C7_theorem c7p rfl c7adj 0 none
  intro i j hadj hij
  fin_cases i <;> fin_cases j <;>
    first
    | exact absurd rfl hij
    | (revert hadj; decide)
    | (norm_num [rankingMask, relDistMeanDiag, relDistSum, relVarTraceDiag,
        relCoorsMean, relCoorsVarDiag, c7cm, c7cv, Fin.sum_univ_three,
        Fin.ext_iff] <;> decide)

/-! ### Claim C8: adjacency-forced inclusion -/

/-- Adjacency for the C8 counterexample: nodes 0 and 1 mutually adjacent. -/
def c8adj : Fin 2 → Fin 2 → Bool := fun i j => !(i = j)

/-- C8, counterexample.  With `N = 2`, `K = 1` and nodes 0, 1 declared
adjacent, the adjacent pair `(0, 1)` is NOT selected: the self-pair of node 0
carries rank `-1`, strictly below the adjacency-forced rank `0`, and fills
the single slot. -/
theorem C8_counterexample :
    adjNoSelf c8adj 0 1 = true ∧
    (1 : Fin 2) ∉ nbhdList 1
      (rankingT none (some c8adj)
        (relDistMeanDiag (relCoorsMean c2cm) (relCoorsVarDiag c2cv))) 0 := by
  refine ⟨by decide, ?_⟩
  apply not_mem_topkSmallest (S := {0}) (by decide) ?_ (by decide)
  intro x hx
  rw [Finset.mem_singleton.mp hx]
  rw [rankingT_self, rankingT_off none c8adj _ (by decide : (0 : Fin 2) ≠ 1),
    if_pos (by decide : adjNoSelf c8adj 0 1 = true)]
  norm_num

/-- Core of claims C8/C10: when an adjacency matrix is supplied and
neighbor restriction is active, a declared-adjacent pair `(i, j)`, `i ≠ j`,
has its ranking forced to `0` regardless of its geometric distance, and is
selected into node `i`'s neighbor set whenever `K ≥ 1 + deg(i)` (the
self-pair at rank `-1` occupies one slot) and every non-adjacent non-self
pair of `i` has strictly positive mask-filled ranking. -/
theorem adjForced_nbhd {n : ℕ} (K : ℕ) (mask : Option (Fin n → Bool))
    (a : Fin n → Fin n → Bool) (rdm : Fin n → Fin n → ℚ)
    {i j : Fin n} (hadj : adjNoSelf a i j = true)
    (hK : 1 + (adjRow a i).card ≤ K)
    (hpos : ∀ b, adjNoSelf a i b = false → b ≠ i → 0 < rankingMask mask rdm i b) :
    rankingT mask (some a) rdm i j = 0 ∧
    j ∈ nbhdList K (rankingT mask (some a) rdm) i := by
  have hij : i ≠ j := by
    intro h
    rw [h] at hadj
    simp [adjNoSelf] at hadj
  have hrank0 : rankingT mask (some a) rdm i j = 0 := by
    rw [rankingT_off mask a rdm hij, if_pos hadj]
  refine ⟨hrank0, ?_⟩
  have hiRow : i ∉ adjRow a i := by
    simp [adjRow, adjNoSelf]
  have hcard : (insert i (adjRow a i)).card ≤ K := by
    rw [Finset.card_insert_of_not_mem hiRow]
    omega
  apply subset_topkSmallest (S := insert i (adjRow a i)) ?_ hcard j
    (Finset.mem_insert_of_mem (Finset.mem_filter.mpr ⟨Finset.mem_univ j, hadj⟩))
  intro x hx b hb
  have hbi : b ≠ i := fun h => hb (by rw [h]; exact Finset.mem_insert_self i _)
  have hbadj : adjNoSelf a i b = false := by
    rcases Bool.eq_false_or_eq_true (adjNoSelf a i b) with h | h
    · exact absurd
        (Finset.mem_insert_of_mem (Finset.mem_filter.mpr ⟨Finset.mem_univ b, h⟩)) hb
    · exact h
  have hvb : 0 < rankingT mask (some a) rdm i b := by
    rw [rankingT_off mask a rdm (fun h => hbi h.symm), if_neg (by simp [hbadj])]
    exact hpos b hbadj hbi
  rcases Finset.mem_insert.mp hx with h | h
  · rw [h, rankingT_self]
    linarith
  · have hxadj : adjNoSelf a i x = true := (Finset.mem_filter.mp h).2
    have hxi : i ≠ x := by
      intro hix
      rw [← hix] at hxadj
      simp [adjNoSelf] at hxadj
    rw [rankingT_off mask a rdm hxi, if_pos hxadj]
    exact hvb

/-- C8, amended (restated).  See `adjForced_nbhd` for the proof: the
adjacent pair is ranked `0` and always selected when `K ≥ 1 + deg(i)` and
all non-adjacent non-self ranks of `i` are positive; the counterexample
shows the unconditioned claim fails for smaller `K`. -/
theorem C8_theorem {n : ℕ} (K : ℕ) (mask : Option (Fin n → Bool))
    (a : Fin n → Fin n → Bool) (rdm : Fin n → Fin n → ℚ)
    {i j : Fin n} (hadj : adjNoSelf a i j = true)
    (hK : 1 + (adjRow a i).card ≤ K)
    (hpos : ∀ b, adjNoSelf a i b = false → b ≠ i → 0 < rankingMask mask rdm i b) :
    rankingT mask (some a) rdm i j = 0 ∧
    j ∈ nbhdList K (rankingT mask (some a) rdm) i :=
  adjForced_nbhd K mask a rdm hadj hK hpos

/-- Adjacency for the C8 witness: the single directed edge `0 → 2`. -/
def c8wadj : Fin 3 → Fin 3 → Bool := fun i j => i = 0 && j = 2

/-- Coordinate means for the C8 witness: node 1 close to node 0, the
declared-adjacent node 2 far away. -/
def c8wcm : Fin 3 → V3 :=
  fun i c => if c = 0 then (if i = 1 then 1 else if i = 2 then 9 else 0) else 0

/-- Witness for `C8_theorem`: node 0 is adjacent only to the far node 2
(distance² `81`), node 1 is much closer (distance² `1`) but non-adjacent,
`K = 2`; the far adjacent node is ranked `0` and selected. -/
theorem C8_theorem_witness :
    rankingT none (some c8wadj)
      (relDistMeanDiag (relCoorsMean c8wcm) (relCoorsVarDiag c7cv)) 0 2 = 0 ∧
    (2 : Fin 3) ∈ nbhdList 2
      (rankingT none (some c8wadj)
        (relDistMeanDiag (relCoorsMean c8wcm) (relCoorsVarDiag c7cv))) 0 := by
  apply C8_theorem 2 none c8wadj _ (by decide) (by decide)
  intro b hbadj hbi
  fin_cases b
  · exact absurd rfl hbi
  · norm_num [rankingMask, relDistMeanDiag, relDistSum, relVarTraceDiag,
      relCoorsMean, relCoorsVarDiag, c8wcm, c7cv, Fin.sum_univ_three,
      Fin.ext_iff]
    decide
  · exact absurd hbadj (by decide)

/-! ### Edge messages, pair masking, pooling and the layer forward pass
(egnn_pytorch.py lines 237-323) -/

/-- One batch element of the `(feats, coors_mean, coors_var)` state triple.
`VarT` is `V3` in the diagonal-variance representation and `M3` in the
full-covariance representation. -/
@[ext]
structure GraphState (n d : ℕ) (VarT : Type) where
  feats : Fin n → Fin d → ℚ
  cm : Fin n → V3
  cv : Fin n → VarT

/-- Lines 241-256: the edge message `m_ij` of the pair `(i, j)`
(`edge_mlp` applied to the concatenated pair input, then the optional
soft-edge gate). -/
def edgeMessage {n d m e : ℕ} (p : EGNNParams d m e)
    (feats : Fin n → Fin d → ℚ) (edges : Fin n → Fin n → Fin e → ℚ)
    (rdm rds : Fin n → Fin n → ℚ) (i j : Fin n) : Fin m → ℚ :=
  let mraw := p.edge_mlp (feats i) (feats j) (rdm i j) (rds i j) (edges i j)
  match p.edge_gate with
  | none => mraw
  | some g => fun t => mraw t * g mraw

/-- Lines 264-266 (dense path): combined pair mask `mask_i * mask_j`. -/
def pairMaskDense {n : ℕ} (mk : Fin n → Bool) (i j : Fin n) : Bool := mk i && mk j

/-- Lines 261-263 (neighbor-restricted path): combined pair mask
`(mask_i * mask_j) & nbhd_mask` at the gathered slot `j`. -/
def pairMaskNearest {n : ℕ} (mk : Fin n → Bool) (vr : WithTop ℚ)
    (rank : Fin n → Fin n → ℚ) (i j : Fin n) : Bool :=
  (mk i && mk j) && nbhdValid vr rank i j

/-- PyTorch `clamp_(min=-c, max=c)`: lower bound applied first, then the
upper bound. -/
def clampW (c : Option ℚ) (w : ℚ) : ℚ :=
  match c with
  | none => w
  | some cval => min (max w (-cval)) cval

/-- Lines 268-277 and 283-291: the per-pair scalar weight of a coordinate
head: MLP output, masked pairs filled with `0`, then optional clamping. -/
def coorWeight {n m : ℕ} (mlp : (Fin m → ℚ) → ℚ) (clamp : Option ℚ)
    (pm : Option (Fin n → Fin n → Bool)) (mij : Fin n → Fin n → Fin m → ℚ)
    (i j : Fin n) : ℚ :=
  clampW clamp (match pm with
    | none => mlp (mij i j)
    | some q => if q i j then mlp (mij i j) else 0)

/-- Lines 301-304: `m_ij = m_ij.masked_fill(~m_ij_mask, 0.)` — the edge
message with masked-out pairs zeroed (the whole message vector). -/
def mijMasked {n m : ℕ} (pm : Option (Fin n → Fin n → Bool))
    (mij : Fin n → Fin n → Fin m → ℚ) (i j : Fin n) : Fin m → ℚ :=
  match pm with
  | none => mij i j
  | some q => if q i j then mij i j else fun _ => 0

/-- Lines 12-15: `safe_div(num, den)` = `num / den.clamp(min=1e-8)` with
entries at `den == 0` overwritten by `0`. -/
def safe_div (num den : ℚ) : ℚ :=
  if den = 0 then 0 else num / max den (1 / 100000000)

/-- Lines 306-315 (neighbor-restricted path): the pooled message `m_i`,
summing the (mask-zeroed) messages over the selected slots; `'mean'` with a
mask divides by the count of mask-valid slots through `safe_div`, `'mean'`
without a mask divides by the slot count. -/
def mPoolNearest {n m : ℕ} (method : PoolMethod) (pm : Option (Fin n → Fin n → Bool))
    (nbhd : Fin n → List (Fin n)) (mij : Fin n → Fin n → Fin m → ℚ)
    (i : Fin n) : Fin m → ℚ :=
  fun t =>
    match method, pm with
    | PoolMethod.mean, some q =>
        safe_div (((nbhd i).map fun j => mijMasked (some q) mij i j t).sum)
          (((nbhd i).map fun j => if q i j then (1 : ℚ) else 0).sum)
    | PoolMethod.mean, none =>
        (((nbhd i).map fun j => mij i j t).sum) / ((nbhd i).length : ℚ)
    | PoolMethod.sum, _ =>
        ((nbhd i).map fun j => mijMasked pm mij i j t).sum

/-- Lines 306-315 (dense path): the pooled message `m_i` over all nodes. -/
def mPoolDense {n m : ℕ} (method : PoolMethod) (pm : Option (Fin n → Fin n → Bool))
    (mij : Fin n → Fin n → Fin m → ℚ) (i : Fin n) : Fin m → ℚ :=
  fun t =>
    match method, pm with
    | PoolMethod.mean, some q =>
        safe_div (∑ j, mijMasked (some q) mij i j t) (∑ j, if q i j then (1 : ℚ) else 0)
    | PoolMethod.mean, none => (∑ j, mij i j t) / (n : ℚ)
    | PoolMethod.sum, _ => ∑ j, mijMasked pm mij i j t

/-- Lines 317-321: `node_out = node_mlp(cat(node_norm(feats), m_i)) + feats`,
or `feats` unchanged when the feature head is disabled. -/
def nodeOut {n d m : ℕ} (mlpO : Option ((Fin d → ℚ) → (Fin m → ℚ) → Fin d → ℚ))
    (nnorm : (Fin d → ℚ) → Fin d → ℚ) (feats : Fin n → Fin d → ℚ)
    (mI : Fin n → Fin m → ℚ) (i : Fin n) : Fin d → ℚ :=
  match mlpO with
  | none => feats i
  | some f => fun td => f (nnorm (feats i)) (mI i) td + feats i td

/-- Lines 268-281 (neighbor-restricted path, mean head): weighted sum of the
normalized relative means over the selected slots, added residually to
`coors_mean`; identity when the head is disabled. -/
def coorsMeanOutNearest {n m : ℕ} (mlpO : Option ((Fin m → ℚ) → ℚ)) (clamp : Option ℚ)
    (cnorm : V3 → V3) (pm : Option (Fin n → Fin n → Bool))
    (mij : Fin n → Fin n → Fin m → ℚ) (rcm : Fin n → Fin n → V3)
    (nbhd : Fin n → List (Fin n)) (cm : Fin n → V3) : Fin n → V3 :=
  match mlpO with
  | none => cm
  | some mlp => fun i c =>
      (((nbhd i).map fun j => coorWeight mlp clamp pm mij i j * cnorm (rcm i j) c).sum)
        + cm i c

/-- Lines 268-281 (dense path, mean head). -/
def coorsMeanOutDense {n m : ℕ} (mlpO : Option ((Fin m → ℚ) → ℚ)) (clamp : Option ℚ)
    (cnorm : V3 → V3) (pm : Option (Fin n → Fin n → Bool))
    (mij : Fin n → Fin n → Fin m → ℚ) (rcm : Fin n → Fin n → V3)
    (cm : Fin n → V3) : Fin n → V3 :=
  match mlpO with
  | none => cm
  | some mlp => fun i c =>
      (∑ j, coorWeight mlp clamp pm mij i j * cnorm (rcm i j) c) + cm i c

/-- Lines 283-299 (neighbor-restricted path, diagonal variance head). -/
def coorsVarOutNearestDiag {n m : ℕ} (mlpO : Option ((Fin m → ℚ) → ℚ)) (clamp : Option ℚ)
    (cnorm : V3 → V3) (pm : Option (Fin n → Fin n → Bool))
    (mij : Fin n → Fin n → Fin m → ℚ) (rcv : Fin n → Fin n → V3)
    (nbhd : Fin n → List (Fin n)) (cv : Fin n → V3) : Fin n → V3 :=
  match mlpO with
  | none => cv
  | some mlp => fun i c =>
      (((nbhd i).map fun j => coorWeight mlp clamp pm mij i j * cnorm (rcv i j) c).sum)
        + cv i c

/-- Lines 283-299 (dense path, diagonal variance head). -/
def coorsVarOutDenseDiag {n m : ℕ} (mlpO : Option ((Fin m → ℚ) → ℚ)) (clamp : Option ℚ)
    (cnorm : V3 → V3) (pm : Option (Fin n → Fin n → Bool))
    (mij : Fin n → Fin n → Fin m → ℚ) (rcv : Fin n → Fin n → V3)
    (cv : Fin n → V3) : Fin n → V3 :=
  match mlpO with
  | none => cv
  | some mlp => fun i c =>
      (∑ j, coorWeight mlp clamp pm mij i j * cnorm (rcv i j) c) + cv i c

/-- Lines 283-299 (neighbor-restricted path, full-covariance head):
`CoorsNorm` acts on the last axis, i.e. row-wise on each 3×3 block. -/
def coorsVarOutNearestFull {n m : ℕ} (mlpO : Option ((Fin m → ℚ) → ℚ)) (clamp : Option ℚ)
    (cnorm : V3 → V3) (pm : Option (Fin n → Fin n → Bool))
    (mij : Fin n → Fin n → Fin m → ℚ) (rcv : Fin n → Fin n → M3)
    (nbhd : Fin n → List (Fin n)) (cv : Fin n → M3) : Fin n → M3 :=
  match mlpO with
  | none => cv
  | some mlp => fun i r c =>
      (((nbhd i).map fun j => coorWeight mlp clamp pm mij i j * cnorm (rcv i j r) c).sum)
        + cv i r c

/-- Lines 283-299 (dense path, full-covariance head). -/
def coorsVarOutDenseFull {n m : ℕ} (mlpO : Option ((Fin m → ℚ) → ℚ)) (clamp : Option ℚ)
    (cnorm : V3 → V3) (pm : Option (Fin n → Fin n → Bool))
    (mij : Fin n → Fin n → Fin m → ℚ) (rcv : Fin n → Fin n → M3)
    (cv : Fin n → M3) : Fin n → M3 :=
  match mlpO with
  | none => cv
  | some mlp => fun i r c =>
      (∑ j, coorWeight mlp clamp pm mij i j * cnorm (rcv i j r) c) + cv i r c

/-- `EGNN.forward`, diagonal variance, neighbor-restricted path, for one
batch element at resolved neighbor count `K` and validity radius `vr`. -/
def egnnNearestDiag1 {n d m e : ℕ} (p : EGNNParams d m e) (K : ℕ) (vr : WithTop ℚ)
    (feats : Fin n → Fin d → ℚ) (cm cv : Fin n → V3)
    (edges : Fin n → Fin n → Fin e → ℚ) (mask : Option (Fin n → Bool))
    (adj : Option (Fin n → Fin n → Bool)) : GraphState n d V3 :=
  let rcm := relCoorsMean cm
  let rcv := relCoorsVarDiag cv
  let rdm := relDistMeanDiag rcm rcv
  let rds := relDistStdDiag rcm rcv
  let rank := rankingT mask adj rdm
  let nbhd := nbhdList K rank
  let mij := edgeMessage p feats edges rdm rds
  let pm : Option (Fin n → Fin n → Bool) := mask.map fun mk => pairMaskNearest mk vr rank
  { feats := nodeOut p.node_mlp p.node_norm feats
      (mPoolNearest p.m_pool_method pm nbhd mij)
    cm := coorsMeanOutNearest p.coors_mean_mlp p.coor_weights_clamp_value
      p.coors_norm pm mij rcm nbhd cm
    cv := coorsVarOutNearestDiag p.coors_var_mlp p.coor_weights_clamp_value
      p.coors_norm pm mij rcv nbhd cv }

/-- `EGNN.forward`, diagonal variance, dense path, for one batch element. -/
def egnnDenseDiag1 {n d m e : ℕ} (p : EGNNParams d m e)
    (feats : Fin n → Fin d → ℚ) (cm cv : Fin n → V3)
    (edges : Fin n → Fin n → Fin e → ℚ) (mask : Option (Fin n → Bool)) :
    GraphState n d V3 :=
  let rcm := relCoorsMean cm
  let rcv := relCoorsVarDiag cv
  let rdm := relDistMeanDiag rcm rcv
  let rds := relDistStdDiag rcm rcv
  let mij := edgeMessage p feats edges rdm rds
  let pm : Option (Fin n → Fin n → Bool) := mask.map fun mk => pairMaskDense mk
  { feats := nodeOut p.node_mlp p.node_norm feats
      (mPoolDense p.m_pool_method pm mij)
    cm := coorsMeanOutDense p.coors_mean_mlp p.coor_weights_clamp_value
      p.coors_norm pm mij rcm cm
    cv := coorsVarOutDenseDiag p.coors_var_mlp p.coor_weights_clamp_value
      p.coors_norm pm mij rcv cv }

/-- `EGNN.forward`, full covariance, neighbor-restricted path, for one batch
element. -/
def egnnNearestFull1 {n d m e : ℕ} (p : EGNNParams d m e) (K : ℕ) (vr : WithTop ℚ)
    (feats : Fin n → Fin d → ℚ) (cm : Fin n → V3) (cv : Fin n → M3)
    (edges : Fin n → Fin n → Fin e → ℚ) (mask : Option (Fin n → Bool))
    (adj : Option (Fin n → Fin n → Bool)) : GraphState n d M3 :=
  let rcm := relCoorsMean cm
  let rcv := relCoorsVarFull cv
  let rdm := relDistMeanFull rcm rcv
  let rds := relDistStdFull rcm rcv
  let rank := rankingT mask adj rdm
  let nbhd := nbhdList K rank
  let mij := edgeMessage p feats edges rdm rds
  let pm : Option (Fin n → Fin n → Bool) := mask.map fun mk => pairMaskNearest mk vr rank
  { feats := nodeOut p.node_mlp p.node_norm feats
      (mPoolNearest p.m_pool_method pm nbhd mij)
    cm := coorsMeanOutNearest p.coors_mean_mlp p.coor_weights_clamp_value
      p.coors_norm pm mij rcm nbhd cm
    cv := coorsVarOutNearestFull p.coors_var_mlp p.coor_weights_clamp_value
      p.coors_norm pm mij rcv nbhd cv }

/-- `EGNN.forward`, full covariance, dense path, for one batch element. -/
def egnnDenseFull1 {n d m e : ℕ} (p : EGNNParams d m e)
    (feats : Fin n → Fin d → ℚ) (cm : Fin n → V3) (cv : Fin n → M3)
    (edges : Fin n → Fin n → Fin e → ℚ) (mask : Option (Fin n → Bool)) :
    GraphState n d M3 :=
  let rcm := relCoorsMean cm
  let rcv := relCoorsVarFull cv
  let rdm := relDistMeanFull rcm rcv
  let rds := relDistStdFull rcm rcv
  let mij := edgeMessage p feats edges rdm rds
  let pm : Option (Fin n → Fin n → Bool) := mask.map fun mk => pairMaskDense mk
  { feats := nodeOut p.node_mlp p.node_norm feats
      (mPoolDense p.m_pool_method pm mij)
    cm := coorsMeanOutDense p.coors_mean_mlp p.coor_weights_clamp_value
      p.coors_norm pm mij rcm cm
    cv := coorsVarOutDenseFull p.coors_var_mlp p.coor_weights_clamp_value
      p.coors_norm pm mij rcv cv }

/-- `EGNN.forward` with `diagonal_var=True` (lines 180-323): dispatch between
the dense and the neighbor-restricted path, resolving `num_nearest` and
`valid_radius` from the configuration and the batched adjacency input. -/
def egnnForwardDiag {bq n d m e : ℕ} (p : EGNNParams d m e)
    (feats : Fin bq → Fin n → Fin d → ℚ) (cm cv : Fin bq → Fin n → V3)
    (edges : Fin bq → Fin n → Fin n → Fin e → ℚ)
    (mask : Option (Fin bq → Fin n → Bool))
    (adj : Option (Fin bq → Fin n → Fin n → Bool)) :
    Fin bq → GraphState n d V3 :=
  fun bi =>
    if useNearest p then
      egnnNearestDiag1 p (resolvedNumNearest p adj) (resolvedValidRadius p adj)
        (feats bi) (cm bi) (cv bi) (edges bi)
        (mask.map fun mk => mk bi) (adj.map fun a => a bi)
    else
      egnnDenseDiag1 p (feats bi) (cm bi) (cv bi) (edges bi)
        (mask.map fun mk => mk bi)

/-- `EGNN.forward` with `diagonal_var=False` (lines 180-323). -/
def egnnForwardFull {bq n d m e : ℕ} (p : EGNNParams d m e)
    (feats : Fin bq → Fin n → Fin d → ℚ) (cm : Fin bq → Fin n → V3)
    (cv : Fin bq → Fin n → M3)
    (edges : Fin bq → Fin n → Fin n → Fin e → ℚ)
    (mask : Option (Fin bq → Fin n → Bool))
    (adj : Option (Fin bq → Fin n → Fin n → Bool)) :
    Fin bq → GraphState n d M3 :=
  fun bi =>
    if useNearest p then
      egnnNearestFull1 p (resolvedNumNearest p adj) (resolvedValidRadius p adj)
        (feats bi) (cm bi) (cv bi) (edges bi)
        (mask.map fun mk => mk bi) (adj.map fun a => a bi)
    else
      egnnDenseFull1 p (feats bi) (cm bi) (cv bi) (edges bi)
        (mask.map fun mk => mk bi)

/-! ### Claims C10, C4, C5: masking semantics -/

/-- A zero weight stays zero through `clamp_(min=-c, max=c)` when the clamp
bound is nonnegative. -/
theorem clampW_zero (clamp : Option ℚ) (hclamp : ∀ cval, clamp = some cval → 0 ≤ cval) :
    clampW clamp 0 = 0 := by
  cases clamp with
  | none => rfl
  | some cval =>
    have h := hclamp cval rfl
    simp only [clampW]
    rw [max_eq_left (by linarith), min_eq_left h]

/-- C10.  With both a mask and an adjacency matrix supplied and neighbor
restriction active, the adjacency overwrite of the ranking is applied after
the mask sentinel: a declared-adjacent pair `(i, j)`, `i ≠ j`, whose mask
product is false still receives ranking `0`, is selected into the neighbor
set (here with `K = 1 + deg(i)`) while every mask-valid non-adjacent pair at
positive mask-filled ranking is NOT selected; the pair's combined downstream
mask is false, so its coordinate weight and pooled message are zeroed only
downstream. -/
theorem C10_theorem {n m : ℕ} (K : ℕ) (mk : Fin n → Bool)
    (a : Fin n → Fin n → Bool) (rdm : Fin n → Fin n → ℚ) (vr : WithTop ℚ)
    (mlp : (Fin m → ℚ) → ℚ) (clamp : Option ℚ) (mij : Fin n → Fin n → Fin m → ℚ)
    {i j : Fin n} (hadj : adjNoSelf a i j = true)
    (hmask : (mk i && mk j) = false)
    (hK : K = 1 + (adjRow a i).card)
    (hpos : ∀ b, adjNoSelf a i b = false → b ≠ i → 0 < rankingMask (some mk) rdm i b)
    (hclamp : ∀ cval, clamp = some cval → 0 ≤ cval) :
    rankingT (some mk) (some a) rdm i j = 0 ∧
    j ∈ nbhdList K (rankingT (some mk) (some a) rdm) i ∧
    (∀ b, adjNoSelf a i b = false → b ≠ i →
      b ∉ nbhdList K (rankingT (some mk) (some a) rdm) i) ∧
    pairMaskNearest mk vr (rankingT (some mk) (some a) rdm) i j = false ∧
    coorWeight mlp clamp
      (some (pairMaskNearest mk vr (rankingT (some mk) (some a) rdm))) mij i j = 0 ∧
    (∀ t, mijMasked
      (some (pairMaskNearest mk vr (rankingT (some mk) (some a) rdm))) mij i j t = 0) := by
  obtain ⟨hr0, hmem⟩ := adjForced_nbhd K (some mk) a rdm hadj (le_of_eq hK.symm) hpos
  have hpmfalse : pairMaskNearest mk vr (rankingT (some mk) (some a) rdm) i j = false := by
    simp [pairMaskNearest, hmask]
  refine ⟨hr0, hmem, ?_, hpmfalse, ?_, ?_⟩
  · intro b hbadj hbi
    have hiRow : i ∉ adjRow a i := by
      simp [adjRow, adjNoSelf]
    apply not_mem_topkSmallest (S := insert i (adjRow a i)) ?_ ?_ ?_
    · intro hbS
      rcases Finset.mem_insert.mp hbS with h | h
      · exact hbi h
      · rw [(Finset.mem_filter.mp h).2] at hbadj
        exact absurd hbadj (by simp)
    · intro x hx
      have hvb : 0 < rankingT (some mk) (some a) rdm i b := by
        rw [rankingT_off (some mk) a rdm (fun h => hbi h.symm), if_neg (by simp [hbadj])]
        exact hpos b hbadj hbi
      rcases Finset.mem_insert.mp hx with h | h
      · rw [h, rankingT_self]
        linarith
      · have hxadj : adjNoSelf a i x = true := (Finset.mem_filter.mp h).2
        have hxi : i ≠ x := by
          intro hix
          rw [← hix] at hxadj
          simp [adjNoSelf] at hxadj
        rw [rankingT_off (some mk) a rdm hxi, if_pos hxadj]
        exact hvb
    · rw [Finset.card_insert_of_not_mem hiRow]
      omega
  · simp only [coorWeight, hpmfalse]
    rw [if_neg (by simp)]
    exact clampW_zero clamp hclamp
  · intro t
    simp only [mijMasked, hpmfalse]
    rw [if_neg (by simp)]

/-- Mask data for the C10/C4/C5 witnesses: node 1 masked out. -/
def c10mk : Fin 2 → Bool := fun i => i = 0

/-- Base ranking for the C10 witness (distance² 1 between the two nodes). -/
def c10rdm : Fin 2 → Fin 2 → ℚ :=
  relDistMeanDiag (relCoorsMean c2cm) (relCoorsVarDiag c2cv)

/-- Witness for `C10_theorem`: nodes 0, 1 mutually adjacent, node 1 masked
out, `K = 2`; the masked adjacent pair `(0, 1)` ranks `0`, is selected, and
its weight and message are zeroed downstream. -/
theorem C10_theorem_witness :
    rankingT (some c10mk) (some c8adj) c10rdm 0 1 = 0 ∧
    (1 : Fin 2) ∈ nbhdList 2 (rankingT (some c10mk) (some c8adj) c10rdm) 0 ∧
    (∀ b, adjNoSelf c8adj 0 b = false → b ≠ 0 →
      b ∉ nbhdList 2 (rankingT (some c10mk) (some c8adj) c10rdm) 0) ∧
    pairMaskNearest c10mk ⊤ (rankingT (some c10mk) (some c8adj) c10rdm) 0 1 = false ∧
    coorWeight (fun _ : Fin 1 → ℚ => 1) none
      (some (pairMaskNearest c10mk ⊤ (rankingT (some c10mk) (some c8adj) c10rdm)))
      (fun _ _ _ => (1 : ℚ)) 0 1 = 0 ∧
    (∀ t : Fin 1, mijMasked
      (some (pairMaskNearest c10mk ⊤ (rankingT (some c10mk) (some c8adj) c10rdm)))
      (fun _ _ _ => (1 : ℚ)) 0 1 t = 0) := by
  apply C10_theorem 2 c10mk c8adj c10rdm ⊤ (fun _ => 1) none
    (fun _ _ _ => (1 : ℚ)) (by decide) (by decide) (by decide)
  · intro b
    fin_cases b
    · intro _ hbi
      exact absurd rfl hbi
    · intro hbadj _
      exact absurd hbadj (by decide)
  · intro cval h
    exact absurd h (by simp)

/-- C4.  With a mask supplied, the combined pair mask is false whenever
either endpoint is masked out (dense path) or additionally whenever the
neighbor-validity flag is false (restricted path); and every pair whose
combined mask is false has its coordinate-head weight forced to exactly `0`
(masked fill, then a clamp that preserves `0` for nonnegative clamp bounds)
and its edge message zeroed before pooling, so it contributes exactly zero
to the pooled node message. -/
theorem C4_theorem {n m : ℕ} (mk : Fin n → Bool) (vr : WithTop ℚ)
    (rank : Fin n → Fin n → ℚ) (mlp : (Fin m → ℚ) → ℚ) (clamp : Option ℚ)
    (mij : Fin n → Fin n → Fin m → ℚ) (i j : Fin n)
    (q : Fin n → Fin n → Bool) (hq : q i j = false)
    (hclamp : ∀ cval, clamp = some cval → 0 ≤ cval) :
    ((mk i = false ∨ mk j = false) → pairMaskDense mk i j = false) ∧
    ((mk i = false ∨ mk j = false ∨ nbhdValid vr rank i j = false) →
      pairMaskNearest mk vr rank i j = false) ∧
    coorWeight mlp clamp (some q) mij i j = 0 ∧
    (∀ t, mijMasked (some q) mij i j t = 0) := by
  refine ⟨?_, ?_, ?_, ?_⟩
  · intro h
    rcases h with h | h <;> simp [pairMaskDense, h]
  · intro h
    rcases h with h | h | h <;> simp [pairMaskNearest, h]
  · simp only [coorWeight, hq]
    rw [if_neg (by simp)]
    exact clampW_zero clamp hclamp
  · intro t
    simp only [mijMasked, hq]
    rw [if_neg (by simp)]

/-- Witness for `C4_theorem`: the masked pair `(0, 1)` of the C10 data. -/
theorem C4_theorem_witness :
    ((c10mk 0 = false ∨ c10mk 1 = false) → pairMaskDense c10mk 0 1 = false) ∧
    ((c10mk 0 = false ∨ c10mk 1 = false ∨ nbhdValid ⊤ c10rdm 0 1 = false) →
      pairMaskNearest c10mk ⊤ c10rdm 0 1 = false) ∧
    coorWeight (fun _ : Fin 1 → ℚ => 1) none (some (pairMaskDense c10mk))
      (fun _ _ _ => (1 : ℚ)) 0 1 = 0 ∧
    (∀ t : Fin 1, mijMasked (some (pairMaskDense c10mk))
      (fun _ _ _ => (1 : ℚ)) 0 1 t = 0) :=
  C4_theorem c10mk ⊤ c10rdm (fun _ => 1) none (fun _ _ _ => (1 : ℚ)) 0 1
    (pairMaskDense c10mk) (by decide) (fun cval h => absurd h (by simp))

/-- C5.  `safe_div` maps a zero denominator to exactly `0`; consequently,
with `'mean'` pooling and a mask present, a node all of whose selected slots
(restricted path) or all of whose pairs (dense path) are mask-invalid gets a
pooled message of exactly `0` — the count of valid neighbors is `0` and the
zero-denominator branch returns `0` instead of dividing. -/
theorem C5_theorem {n m : ℕ} (q : Fin n → Fin n → Bool)
    (nbhd : Fin n → List (Fin n)) (mij : Fin n → Fin n → Fin m → ℚ) (i : Fin n)
    (hzero : ∀ j ∈ nbhd i, q i j = false)
    (hzeroD : ∀ j, q i j = false) :
    (∀ x : ℚ, safe_div x 0 = 0) ∧
    (∀ t, mPoolNearest PoolMethod.mean (some q) nbhd mij i t = 0) ∧
    (∀ t, mPoolDense PoolMethod.mean (some q) mij i t = 0) := by
  have hsd : ∀ x : ℚ, safe_div x 0 = 0 := fun x => by
    simp [safe_div]
  refine ⟨hsd, ?_, ?_⟩
  · intro t
    have hden : (((nbhd i).map fun j => if q i j then (1 : ℚ) else 0).sum) = 0 := by
      apply List.sum_eq_zero
      intro x hx
      obtain ⟨j, hj, hjx⟩ := List.mem_map.mp hx
      rw [← hjx, hzero j hj]
      simp
    simp only [mPoolNearest, hden]
    exact hsd _
  · intro t
    have hden : (∑ j, if q i j then (1 : ℚ) else 0) = 0 := by
      apply Finset.sum_eq_zero
      intro j _
      rw [hzeroD j]
      simp
    simp only [mPoolDense, hden]
    exact hsd _

/-- Witness for `C5_theorem`: row 1 of the C10 mask (node 1 masked out, so
every pair `(1, j)` is mask-invalid), with the slot list `[0]`. -/
theorem C5_theorem_witness :
    (∀ x : ℚ, safe_div x 0 = 0) ∧
    (∀ t : Fin 1, mPoolNearest PoolMethod.mean (some (pairMaskDense c10mk))
      (fun _ => [0]) (fun _ _ _ => (1 : ℚ)) (1 : Fin 2) t = 0) ∧
    (∀ t : Fin 1, mPoolDense PoolMethod.mean (some (pairMaskDense c10mk))
      (fun _ _ _ => (1 : ℚ)) (1 : Fin 2) t = 0) :=
  C5_theorem (pairMaskDense c10mk) (fun _ => [0]) (fun _ _ _ => (1 : ℚ)) 1
    (fun j _ => by revert j; decide) (fun j => by revert j; decide)

/-! ### Claim C1: translation invariance of `EGNN.forward` -/

/-- Adding a constant vector `t` to every node's coordinate mean. -/
def translate1 {n : ℕ} (cm : Fin n → V3) (t : V3) : Fin n → V3 :=
  fun i c => cm i c + t c

theorem relCoorsMean_translate1 {n : ℕ} (cm : Fin n → V3) (t : V3) :
    relCoorsMean (translate1 cm t) = relCoorsMean cm := by
  funext i j c
  unfold relCoorsMean translate1
  ring

theorem coorsMeanOutNearest_translate1 {n m : ℕ}
    (mlpO : Option ((Fin m → ℚ) → ℚ)) (clamp : Option ℚ) (cnorm : V3 → V3)
    (pm : Option (Fin n → Fin n → Bool)) (mij : Fin n → Fin n → Fin m → ℚ)
    (rcm : Fin n → Fin n → V3) (nbhd : Fin n → List (Fin n))
    (cm : Fin n → V3) (t : V3) :
    coorsMeanOutNearest mlpO clamp cnorm pm mij rcm nbhd (translate1 cm t) =
      translate1 (coorsMeanOutNearest mlpO clamp cnorm pm mij rcm nbhd cm) t := by
  cases mlpO with
  | none => rfl
  | some mlp =>
    funext i c
    simp only [coorsMeanOutNearest, translate1]
    ring

theorem coorsMeanOutDense_translate1 {n m : ℕ}
    (mlpO : Option ((Fin m → ℚ) → ℚ)) (clamp : Option ℚ) (cnorm : V3 → V3)
    (pm : Option (Fin n → Fin n → Bool)) (mij : Fin n → Fin n → Fin m → ℚ)
    (rcm : Fin n → Fin n → V3) (cm : Fin n → V3) (t : V3) :
    coorsMeanOutDense mlpO clamp cnorm pm mij rcm (translate1 cm t) =
      translate1 (coorsMeanOutDense mlpO clamp cnorm pm mij rcm cm) t := by
  cases mlpO with
  | none => rfl
  | some mlp =>
    funext i c
    simp only [coorsMeanOutDense, translate1]
    ring

theorem egnnNearestDiag1_translate {n d m e : ℕ} (p : EGNNParams d m e)
    (K : ℕ) (vr : WithTop ℚ) (feats : Fin n → Fin d → ℚ) (cm cv : Fin n → V3)
    (edges : Fin n → Fin n → Fin e → ℚ) (mask : Option (Fin n → Bool))
    (adj : Option (Fin n → Fin n → Bool)) (t : V3) :
    egnnNearestDiag1 p K vr feats (translate1 cm t) cv edges mask adj =
      { feats := (egnnNearestDiag1 p K vr feats cm cv edges mask adj).feats
        cm := translate1 ((egnnNearestDiag1 p K vr feats cm cv edges mask adj).cm) t
        cv := (egnnNearestDiag1 p K vr feats cm cv edges mask adj).cv } := by
  simp only [egnnNearestDiag1, relCoorsMean_translate1, coorsMeanOutNearest_translate1]

theorem egnnDenseDiag1_translate {n d m e : ℕ} (p : EGNNParams d m e)
    (feats : Fin n → Fin d → ℚ) (cm cv : Fin n → V3)
    (edges : Fin n → Fin n → Fin e → ℚ) (mask : Option (Fin n → Bool)) (t : V3) :
    egnnDenseDiag1 p feats (translate1 cm t) cv edges mask =
      { feats := (egnnDenseDiag1 p feats cm cv edges mask).feats
        cm := translate1 ((egnnDenseDiag1 p feats cm cv edges mask).cm) t
        cv := (egnnDenseDiag1 p feats cm cv edges mask).cv } := by
  simp only [egnnDenseDiag1, relCoorsMean_translate1, coorsMeanOutDense_translate1]

theorem egnnNearestFull1_translate {n d m e : ℕ} (p : EGNNParams d m e)
    (K : ℕ) (vr : WithTop ℚ) (feats : Fin n → Fin d → ℚ) (cm : Fin n → V3)
    (cv : Fin n → M3) (edges : Fin n → Fin n → Fin e → ℚ)
    (mask : Option (Fin n → Bool)) (adj : Option (Fin n → Fin n → Bool)) (t : V3) :
    egnnNearestFull1 p K vr feats (translate1 cm t) cv edges mask adj =
      { feats := (egnnNearestFull1 p K vr feats cm cv edges mask adj).feats
        cm := translate1 ((egnnNearestFull1 p K vr feats cm cv edges mask adj).cm) t
        cv := (egnnNearestFull1 p K vr feats cm cv edges mask adj).cv } := by
  simp only [egnnNearestFull1, relCoorsMean_translate1, coorsMeanOutNearest_translate1]

theorem egnnDenseFull1_translate {n d m e : ℕ} (p : EGNNParams d m e)
    (feats : Fin n → Fin d → ℚ) (cm : Fin n → V3) (cv : Fin n → M3)
    (edges : Fin n → Fin n → Fin e → ℚ) (mask : Option (Fin n → Bool)) (t : V3) :
    egnnDenseFull1 p feats (translate1 cm t) cv edges mask =
      { feats := (egnnDenseFull1 p feats cm cv edges mask).feats
        cm := translate1 ((egnnDenseFull1 p feats cm cv edges mask).cm) t
        cv := (egnnDenseFull1 p feats cm cv edges mask).cv } := by
  simp only [egnnDenseFull1, relCoorsMean_translate1, coorsMeanOutDense_translate1]

/-- C1.  For every configuration, every input (features, coordinate means,
diagonal or full variances, optional edges/mask/adjacency) and every constant
3-vector `t`, `EGNN.forward` on the translated coordinate means produces the
same output features, the same output variances, and output coordinate means
equal to the untranslated output means translated by `t`: all downstream
computation (distances, ranking, neighbor selection, messages, weights) uses
only the pairwise difference of coordinate means, and the absolute mean
re-enters only through the residual `+ coors_mean`. -/
theorem C1_theorem {bq n d m e : ℕ} (p : EGNNParams d m e)
    (feats : Fin bq → Fin n → Fin d → ℚ) (cm : Fin bq → Fin n → V3)
    (cvD : Fin bq → Fin n → V3) (cvF : Fin bq → Fin n → M3)
    (edges : Fin bq → Fin n → Fin n → Fin e → ℚ)
    (mask : Option (Fin bq → Fin n → Bool))
    (adj : Option (Fin bq → Fin n → Fin n → Bool)) (t : V3) (bi : Fin bq) :
    egnnForwardDiag p feats (fun b => translate1 (cm b) t) cvD edges mask adj bi =
      { feats := (egnnForwardDiag p feats cm cvD edges mask adj bi).feats
        cm := translate1 ((egnnForwardDiag p feats cm cvD edges mask adj bi).cm) t
        cv := (egnnForwardDiag p feats cm cvD edges mask adj bi).cv } ∧
    egnnForwardFull p feats (fun b => translate1 (cm b) t) cvF edges mask adj bi =
      { feats := (egnnForwardFull p feats cm cvF edges mask adj bi).feats
        cm := translate1 ((egnnForwardFull p feats cm cvF edges mask adj bi).cm) t
        cv := (egnnForwardFull p feats cm cvF edges mask adj bi).cv } := by
  constructor
  · unfold egnnForwardDiag
    rcases Bool.eq_false_or_eq_true (useNearest p) with hU | hU
    · simp only [if_pos hU]
      exact egnnNearestDiag1_translate p _ _ (feats bi) (cm bi) (cvD bi) (edges bi)
        (mask.map fun mk => mk bi) (adj.map fun a => a bi) t
    · have hc : ¬(useNearest p = true) := by simp [hU]
      simp only [if_neg hc]
      exact egnnDenseDiag1_translate p (feats bi) (cm bi) (cvD bi) (edges bi)
        (mask.map fun mk => mk bi) t
  · unfold egnnForwardFull
    rcases Bool.eq_false_or_eq_true (useNearest p) with hU | hU
    · simp only [if_pos hU]
      exact egnnNearestFull1_translate p _ _ (feats bi) (cm bi) (cvF bi) (edges bi)
        (mask.map fun mk => mk bi) (adj.map fun a => a bi) t
    · have hc : ¬(useNearest p = true) := by simp [hU]
      simp only [if_neg hc]
      exact egnnDenseFull1_translate p (feats bi) (cm bi) (cvF bi) (edges bi)
        (mask.map fun mk => mk bi) t

/-! ### Claim C6: the position-freeze flag in `EGNN_Network.forward`
(egnn_pytorch.py lines 397-416) -/

/-- Opaque global-linear-attention block: maps (features, global tokens,
mask) to updated (features, global tokens). -/
abbrev AttnF (bq n d g : ℕ) : Type :=
  (Fin bq → Fin n → Fin d → ℚ) → (Fin bq → Fin g → Fin d → ℚ) →
    Option (Fin bq → Fin n → Bool) →
    ((Fin bq → Fin n → Fin d → ℚ) × (Fin bq → Fin g → Fin d → ℚ))

/-- The state threaded through the layer loop of `EGNN_Network.forward`:
features, coordinate means, (diagonal) coordinate variances, global tokens. -/
structure NetState (bq n d g : ℕ) where
  feats : Fin bq → Fin n → Fin d → ℚ
  cm : Fin bq → Fin n → V3
  cv : Fin bq → Fin n → V3
  gt : Fin bq → Fin g → Fin d → ℚ

/-- Lines 402-408: one iteration of the layer loop: optional global
attention, then the EGNN transform, then — when `pos_change_flag` is
supplied — `coors_mean[~pos_change_flag] = coors_mean_[~pos_change_flag]`:
rows whose flag is FALSE are overwritten with the pre-loop snapshot `cm0`;
rows whose flag is TRUE keep the layer's update. -/
def networkStepDiag {bq n d g m e : ℕ}
    (layer : Option (AttnF bq n d g) × EGNNParams d m e)
    (edges : Fin bq → Fin n → Fin n → Fin e → ℚ)
    (mask : Option (Fin bq → Fin n → Bool))
    (adj : Option (Fin bq → Fin n → Fin n → Bool))
    (flag : Option (Fin bq → Fin n → Bool))
    (cm0 : Fin bq → Fin n → V3) (st : NetState bq n d g) : NetState bq n d g :=
  let fg := match layer.1 with
    | none => (st.feats, st.gt)
    | some att => att st.feats st.gt mask
  let out := egnnForwardDiag layer.2 fg.1 st.cm st.cv edges mask adj
  { feats := fun bi => (out bi).feats
    cm := fun bi i => match flag with
      | none => (out bi).cm i
      | some fl => if fl bi i then (out bi).cm i else cm0 bi i
    cv := fun bi => (out bi).cv
    gt := fg.2 }

/-- Lines 397-416: the layer loop of `EGNN_Network.forward` (diagonal
variance), with the snapshot `coors_mean_ = coors_mean.clone()` taken from
the initial state before the loop begins. -/
def networkLoopDiag {bq n d g m e : ℕ}
    (layers : List (Option (AttnF bq n d g) × EGNNParams d m e))
    (edges : Fin bq → Fin n → Fin n → Fin e → ℚ)
    (mask : Option (Fin bq → Fin n → Bool))
    (adj : Option (Fin bq → Fin n → Fin n → Bool))
    (flag : Option (Fin bq → Fin n → Bool))
    (st0 : NetState bq n d g) : NetState bq n d g :=
  layers.foldl (fun st layer => networkStepDiag layer edges mask adj flag st0.cm st) st0

theorem networkLoop_freeze_aux {bq n d g m e : ℕ}
    (layers : List (Option (AttnF bq n d g) × EGNNParams d m e))
    (edges : Fin bq → Fin n → Fin n → Fin e → ℚ)
    (mask : Option (Fin bq → Fin n → Bool))
    (adj : Option (Fin bq → Fin n → Fin n → Bool))
    (flag : Fin bq → Fin n → Bool) (cm0 : Fin bq → Fin n → V3)
    (st : NetState bq n d g) {bi : Fin bq} {i : Fin n}
    (hst : st.cm bi i = cm0 bi i) (hf : flag bi i = false) :
    (layers.foldl (fun st layer => networkStepDiag layer edges mask adj (some flag) cm0 st)
      st).cm bi i = cm0 bi i := by
  induction layers generalizing st with
  | nil => exact hst
  | cons hd tl ih =>
    rw [List.foldl_cons]
    apply ih
    simp only [networkStepDiag, hf]
    rw [if_neg (by simp)]

/-- C6, amended.  In the layer loop with `pos_change_flag` supplied, the
restore `coors_mean[~pos_change_flag] = coors_mean_[...]` keeps the rows of
every UNFLAGGED node (`pos_change_flag` FALSE) at the pre-loop initial value
after every layer (hence after the whole stack), while the rows of flagged
(`True`) nodes carry the layer's EGNN update — the opposite polarity of the
claim. -/
theorem C6_theorem {bq n d g m e : ℕ}
    (layers : List (Option (AttnF bq n d g) × EGNNParams d m e))
    (edges : Fin bq → Fin n → Fin n → Fin e → ℚ)
    (mask : Option (Fin bq → Fin n → Bool))
    (adj : Option (Fin bq → Fin n → Fin n → Bool))
    (flag : Fin bq → Fin n → Bool) (st0 : NetState bq n d g)
    (layer : Option (AttnF bq n d g) × EGNNParams d m e)
    (st : NetState bq n d g) (cm0 : Fin bq → Fin n → V3)
    (bi : Fin bq) (i : Fin n) :
    (flag bi i = false →
      (networkLoopDiag layers edges mask adj (some flag) st0).cm bi i = st0.cm bi i) ∧
    (flag bi i = true →
      (networkStepDiag layer edges mask adj (some flag) cm0 st).cm bi i =
        (egnnForwardDiag layer.2
          (match layer.1 with
            | none => st.feats
            | some att => (att st.feats st.gt mask).1)
          st.cm st.cv edges mask adj bi).cm i) := by
  constructor
  · intro hf
    exact networkLoop_freeze_aux layers edges mask adj flag st0.cm st0 rfl hf
  · intro hf
    simp only [networkStepDiag, hf]
    rw [if_pos trivial]
    cases hl : layer.1 with
    | none => simp [hl]
    | some att => simp [hl]

/-- Parameters for the C6 counterexample: constant unit edge message, mean
head returning weight 1, feature and variance updates disabled, dense path. -/
def p6 : EGNNParams 1 1 0 where
  edge_mlp := fun _ _ _ _ _ _ => 1
  edge_gate := none
  node_mlp := none
  coors_mean_mlp := some fun _ => 1
  coors_var_mlp := none
  node_norm := id
  coors_norm := id
  num_nearest_neighbors := 0
  only_sparse_neighbors := false
  valid_radius := ⊤
  m_pool_method := PoolMethod.sum
  coor_weights_clamp_value := none

/-- Initial state for the C6 counterexample: batch 1, nodes at `0` and
`(1,0,0)`, zero features and variances, no global tokens. -/
def c6st0 : NetState 1 2 1 0 where
  feats := fun _ _ _ => 0
  cm := fun _ => c2cm
  cv := fun _ _ _ => 0
  gt := fun _ x _ => x.elim0

/-- Empty edge-feature tensor for the C6 counterexample. -/
def c6edges : Fin 1 → Fin 2 → Fin 2 → Fin 0 → ℚ := fun _ _ _ x => x.elim0

/-- All-true position-change flag. -/
def c6flag : Fin 1 → Fin 2 → Bool := fun _ _ => true

/-- C6, counterexample.  With `pos_change_flag` identically TRUE, the claim
says every (flagged) node's `coors_mean` row is restored to its pre-stack
value after the layer; but the code restores only `~pos_change_flag` rows,
so node 0's first coordinate moves from `0` to `-1` (weight-1 sum of the
relative means `0` and `-1`). -/
theorem C6_counterexample :
    c6flag 0 0 = true ∧
    (networkLoopDiag [(none, p6)] c6edges none none (some c6flag) c6st0).cm 0 0 0 ≠
      c6st0.cm 0 0 0 := by
  refine ⟨rfl, ?_⟩
  have hout : (networkLoopDiag [(none, p6)] c6edges none none
      (some c6flag) c6st0).cm 0 0 0 = -1 := by
    simp [networkLoopDiag, networkStepDiag, c6flag, egnnForwardDiag, useNearest, p6,
      egnnDenseDiag1, coorsMeanOutDense, coorWeight, clampW, edgeMessage,
      relCoorsMean, relCoorsVarDiag, relDistMeanDiag, relDistSum, relVarTraceDiag,
      relDistStdDiag, mijMasked, c6st0, c2cm, Fin.sum_univ_two, Fin.ext_iff]
  rw [hout]
  simp [c6st0, c2cm]

/-- Flag for the C6 witness: node 0 may change (`true`), node 1 frozen
(`false`). -/
def c6wflag : Fin 1 → Fin 2 → Bool := fun _ i => i = 0

/-- Witness for `C6_theorem`: with node 1 unflagged, its row of the loop
output equals the initial row; with node 0 flagged, the step output row is
the raw EGNN output row. -/
theorem C6_theorem_witness :
    (networkLoopDiag [(none, p6)] c6edges none none (some c6wflag) c6st0).cm 0 1 =
      c6st0.cm 0 1 ∧
    (networkStepDiag (none, p6) c6edges none none (some c6wflag) c6st0.cm c6st0).cm 0 0 =
      (egnnForwardDiag p6 c6st0.feats c6st0.cm c6st0.cv c6edges none none 0).cm 0 :=
  ⟨(C6_theorem [(none, p6)] c6edges none none c6wflag c6st0 (none, p6) c6st0
      c6st0.cm 0 1).1 (by decide),
   (C6_theorem [(none, p6)] c6edges none none c6wflag c6st0 (none, p6) c6st0
      c6st0.cm 0 0).2 (by decide)⟩

/-! ### Claim C9: multi-degree adjacency expansion
(egnn_pytorch.py lines 371-386) -/

/-- Line 383: `next_degree_adj_mat = (adj_mat.float() @ adj_mat.float()) > 0`
— an entry of the float matrix product is positive iff some intermediate
node connects the pair, i.e. the boolean matrix square. -/
def adjSquare {n : ℕ} (a : Fin n → Fin n → Bool) : Fin n → Fin n → Bool :=
  fun i j => decide (∃ kk, a i kk = true ∧ a kk j = true)

/-- Lines 380-386: one iteration of the degree loop at the given `degree`:
`next_degree_mask = (next.float() - adj.float()).bool()` is true wherever
`next` and `adj` DIFFER (the float difference is `±1`, both cast to true);
those entries of the index map are overwritten with `degree`, and the
adjacency is replaced by its square. -/
def adjDegreeStep {n : ℕ} (st : (Fin n → Fin n → ℕ) × (Fin n → Fin n → Bool))
    (degree : ℕ) : (Fin n → Fin n → ℕ) × (Fin n → Fin n → Bool) :=
  let next := adjSquare st.2
  (fun i j => if next i j ≠ st.2 i j then degree else st.1 i j, next)

/-- Lines 372-386: the whole loop `for ind in range(num_adj_degrees - 1)`
with `degree = ind + 2`, starting from `adj_indices = adj_mat.long()`
(1 at adjacent pairs, 0 elsewhere). -/
def adjDegreeFold {n : ℕ} (numDeg : ℕ) (a : Fin n → Fin n → Bool) :
    (Fin n → Fin n → ℕ) × (Fin n → Fin n → Bool) :=
  (List.range (numDeg - 1)).foldl (fun st ind => adjDegreeStep st (ind + 2))
    ((fun i j => if a i j then 1 else 0), a)

/-- The integer degree map `adj_indices` produced by the loop. -/
def adjIndicesFinal {n : ℕ} (numDeg : ℕ) (a : Fin n → Fin n → Bool) :
    Fin n → Fin n → ℕ :=
  (adjDegreeFold numDeg a).1

/-- `t`-fold boolean squaring of an adjacency matrix (so `adjIter a t`
connects pairs joined by a path of length exactly `2 ^ t` in `a`). -/
def adjIter {n : ℕ} (a : Fin n → Fin n → Bool) : ℕ → (Fin n → Fin n → Bool)
  | 0 => a
  | t + 1 => adjSquare (adjIter a t)

/-- Path graph `0 - 1 - 2` for the C9 counterexample. -/
def c9adj : Fin 3 → Fin 3 → Bool :=
  fun i j => (i = 0 && j = 1) || (i = 1 && j = 0) || (i = 1 && j = 2) || (i = 2 && j = 1)

/-- C9, counterexample.  On the path graph `0 - 1 - 2` with
`num_adj_degrees = 2`, the directly adjacent pair `(0, 1)` records degree
`2`, not `1`: the boolean square of the path graph does not contain `(0,1)`
(no length-2 walk joins them), the float subtraction gives `-1`, and
`.bool()` turns `-1` into true, so the pair is overwritten with `2`. -/
theorem C9_counterexample :
    c9adj 0 1 = true ∧ adjIndicesFinal 2 c9adj 0 1 = 2 := by
  constructor
  · decide
  · decide

theorem adjIter_square {n : ℕ} (a : Fin n → Fin n → Bool) (k : ℕ) :
    adjIter (adjSquare a) k = adjIter a (k + 1) := by
  induction k with
  | zero => rfl
  | succ k ih =>
    show adjSquare (adjIter (adjSquare a) k) = adjSquare (adjIter a (k + 1))
    rw [ih]

/-- The first component of one degree-loop step, written out. -/
theorem adjDegreeStep_fst {n : ℕ} (st : (Fin n → Fin n → ℕ) × (Fin n → Fin n → Bool))
    (deg : ℕ) (i j : Fin n) :
    (adjDegreeStep st deg).1 i j =
      if adjSquare st.2 i j ≠ st.2 i j then deg else st.1 i j := rfl

theorem adjDegreeStep_fold_snd {n : ℕ} (l : List ℕ)
    (st : (Fin n → Fin n → ℕ) × (Fin n → Fin n → Bool)) :
    (l.foldl (fun st ind => adjDegreeStep st (ind + 2)) st).2 = adjIter st.2 l.length := by
  induction l generalizing st with
  | nil => rfl
  | cons hd tl ih =>
    rw [List.foldl_cons, ih]
    show adjIter (adjSquare st.2) tl.length = adjIter st.2 (hd :: tl).length
    rw [adjIter_square]
    rfl

/-- C9, amended.  The degree map does NOT record hop distances.  What the
loop computes: (1) the adjacency matrix is replaced by its boolean SQUARE at
every iteration, so after the loop it connects pairs joined by walks of
length `2 ^ (num_adj_degrees - 1)`, not `num_adj_degrees` hops; (2) for
`num_adj_degrees = 2` the map records `2` at every pair where the boolean
square DIFFERS from the adjacency (in either direction — including directly
adjacent pairs that lose connectivity under squaring), `1` at remaining
adjacent pairs, `0` elsewhere; (3) for larger caps each further iteration
overwrites with `k + 2` every pair where the squared matrix differs from the
current one, last write winning. -/
theorem C9_theorem :
    (∀ (n numDeg : ℕ) (a : Fin n → Fin n → Bool),
      (adjDegreeFold numDeg a).2 = adjIter a (numDeg - 1)) ∧
    (∀ (n : ℕ) (a : Fin n → Fin n → Bool) (i j : Fin n),
      adjIndicesFinal 2 a i j =
        if adjSquare a i j ≠ a i j then 2 else if a i j then 1 else 0) ∧
    (∀ (n k : ℕ) (a : Fin n → Fin n → Bool) (i j : Fin n),
      adjIndicesFinal (k + 2) a i j =
        if adjSquare (adjIter a k) i j ≠ adjIter a k i j then k + 2
        else adjIndicesFinal (k + 1) a i j) := by
  refine ⟨?_, ?_, ?_⟩
  · intro n numDeg a
    rw [adjDegreeFold, adjDegreeStep_fold_snd, List.length_range]
  · intro n a i j
    rfl
  · intro n k a i j
    show (adjDegreeFold (k + 2) a).1 i j = _
    rw [adjDegreeFold]
    have hr : List.range (k + 2 - 1) = List.range k ++ [k] := by
      have h1 : k + 2 - 1 = k + 1 := by omega
      rw [h1, List.range_succ]
    rw [hr, List.foldl_append]
    simp only [List.foldl_cons, List.foldl_nil]
    rw [adjDegreeStep_fst]
    have hsnd : (List.foldl (fun st ind => adjDegreeStep st (ind + 2))
        ((fun i j => if a i j then (1 : ℕ) else 0), a) (List.range k)).2 = adjIter a k := by
      rw [adjDegreeStep_fold_snd, List.length_range]
    rw [hsnd]
    rfl

end PDCNet
